import Mathlib

/-!
A shallow embedding of `ci_info/push.py` (regression inference over CI
pushes) together with proofs about it.

Modelling conventions:
  - `Status`, `Task`, `LabelSummary` and the per-push operations are direct
    translations of the corresponding Python definitions.
  - A Python `set` is modelled as a deduplicated list; only membership in
    such a set is meaningful.
  - The `assert` in `LabelSummary.__post_init__` is modelled by the
    `Option`-valued constructor `mkLabelSummary` (`none` = assertion failure).
  - The raw records returned by the `push_results` query are modelled by
    `RawTask`, whose fields are `Option`-valued (a missing key is `none`).
  - The two unbounded `while True` loops of the source (`Push.parent` and
    the ancestor walk inside `Push.regressions`) are modelled with an
    explicit fuel parameter: a result of `none` at every fuel value means
    the source loop never terminates.
  - The ancestor chain seen by the regression walk is abstracted as a
    function `anc : Nat → List Task`, where `anc 0` is the task list of
    `self.parent`, `anc 1` of `self.parent.parent`, and so on; the `count`
    variable of the source equals the chain index at which the walk stops.
  - Python's `int(x / 3600)` truncates toward zero, which is `Int.tdiv`.
-/

namespace CIRecipes

/-- The `Status` enum of `push.py`. -/
inductive Status where
  | PASS
  | FAIL
  | INTERMITTENT
deriving DecidableEq, Repr

/-- The `Task` dataclass: information pertaining to a single task. -/
structure Task where
  label : String
  duration : Int
  result : String
  classification : String
deriving DecidableEq, Repr

/-- `Task.failed`: `self.result in ('busted', 'exception', 'testfailed')`. -/
def Task.failed (t : Task) : Bool :=
  ["busted", "exception", "testfailed"].contains t.result

/-- The `LabelSummary` dataclass (label plus all tasks sharing that label). -/
structure LabelSummary where
  label : String
  tasks : List Task
deriving DecidableEq, Repr

/-- `LabelSummary.__post_init__`: the construction-time assertion
`assert all(t.label == self.label for t in self.tasks)`, modelled as an
`Option`-valued constructor (`none` = the assertion fires). -/
def mkLabelSummary (label : String) (tasks : List Task) : Option LabelSummary :=
  if tasks.all (fun t => t.label == label) then some ⟨label, tasks⟩ else none

/-- `LabelSummary.classifications`: the set of classifications of the failed
tasks, as a deduplicated list. -/
def LabelSummary.classifications (s : LabelSummary) : List String :=
  ((s.tasks.filter Task.failed).map Task.classification).dedup

/-- One step of the loop in `LabelSummary.status`: fold the next task's
pass/fail outcome into the running overall status. -/
def statusStep (overall : Option Status) (t : Task) : Option Status :=
  let st := if t.failed then Status.FAIL else Status.PASS
  match overall with
  | none => some st
  | some o => if st = o then some o else some Status.INTERMITTENT

/-- `LabelSummary.status`: the loop over `self.tasks`, starting from
`overall_status = None`. -/
def LabelSummary.status (s : LabelSummary) : Option Status :=
  s.tasks.foldl statusStep none

/-- `Push.task_labels`: the set of labels of the push's tasks. -/
def taskLabels (tasks : List Task) : List String :=
  (tasks.map Task.label).dedup

/-- The `LabelSummary` that `Push.label_summaries` builds for one label:
grouping by label preserves the order of `tasks`, so the group for `label`
is exactly the sublist of tasks carrying that label. -/
def labelSummary (tasks : List Task) (label : String) : LabelSummary :=
  ⟨label, tasks.filter (fun t => t.label == label)⟩

/-- `Push.label_summaries`: one summary per distinct label. -/
def label_summaries (tasks : List Task) : List (String × LabelSummary) :=
  (taskLabels tasks).map (fun l => (l, labelSummary tasks l))

/-- A raw record from the `push_results` query; each field is `none` when
the corresponding key is missing from the record. -/
structure RawTask where
  label : Option String
  duration : Option Int
  result : Option String
  classification : Option String
deriving DecidableEq, Repr

/-- The per-record part of the loop in `Push.tasks`: skip the record when
one of the four keys is missing or when `duration <= 0`. -/
def toTask (r : RawTask) : Option Task :=
  match r.label, r.duration, r.result, r.classification with
  | some l, some d, some res, some c =>
    if d ≤ 0 then none else some ⟨l, d, res, c⟩
  | _, _, _, _ => none

/-- The sanitization loop of `Push.tasks` over the raw query data. -/
def sanitizeTasks : List RawTask → List Task
  | [] => []
  | r :: rest =>
    match toTask r with
    | none => sanitizeTasks rest
    | some t => t :: sanitizeTasks rest

/-- `Push.duration`: `int(sum(t.duration for t in self.tasks) / 3600)`. -/
def Push.duration (tasks : List Task) : Int :=
  Int.tdiv ((tasks.map Task.duration).sum) 3600

/-- The loop of `Push.scheduled_duration`: accumulate the duration of each
task whose label was not seen earlier in the pass. -/
def schedLoop : List Task → List String → Int → Int
  | [], _, acc => acc
  | t :: rest, seen, acc =>
    if seen.contains t.label then schedLoop rest seen acc
    else schedLoop rest (t.label :: seen) (acc + t.duration)

/-- `Push.scheduled_duration`: the loop starting from `seen = set()` and
`duration = 0`, then `int(duration / 3600)`. -/
def Push.scheduled_duration (tasks : List Task) : Int :=
  Int.tdiv (schedLoop tasks [] 0) 3600

/-- Spec-side companion for `Push.scheduled_duration`: the sublist keeping
only the first-seen task of each label, in the list's order (a task is kept
iff no earlier task carries its label). -/
def firstSeenPerLabel : List Task → List Task
  | [] => []
  | t :: rest =>
    t :: firstSeenPerLabel (rest.filter (fun u => !(u.label == t.label)))
termination_by l => l.length
decreasing_by
  simp only [List.length_cons]
  exact Nat.lt_succ_of_le (List.length_filter_le _ _)

/-- The `failclass` tuple of `Push.candidate_regressions`. -/
def failclass : List String := ["not classified", "fixed by commit"]

/-- `Push.candidate_regressions`: the labels whose summary status is not
PASS and at least one of whose failure classifications is unexplained. -/
def candidate_regressions (tasks : List Task) : List String :=
  (taskLabels tasks).filter (fun l =>
    decide ((labelSummary tasks l).status ≠ some Status.PASS) &&
      (labelSummary tasks l).classifications.any (fun c => failclass.contains c))

/-- The status a push's `label_summaries[label]` reports for `label`. -/
def statusOfLabel (tasks : List Task) (label : String) : Option Status :=
  (labelSummary tasks label).status

/-- The inner `while True` walk of `Push.regressions` for one candidate
label, with fuel. `anc i` is the task list of the `(i+1)`-st ancestor push;
the walk starts at index `i` (the source starts at `self.parent`, index 0,
with `count = 0`; `count` always equals the current index). Result:
`some (some c)` = the label was found passing at distance `c` (the source
records `regressions[label] = count`); `some none` = the label was found
not passing (`prior_regression = True`, the label is dropped); `none` = the
fuel ran out, i.e. the source loop has not terminated after that many
iterations. -/
def regressionWalk (anc : Nat → List Task) (label : String) : Nat → Nat → Option (Option Nat)
  | _, 0 => none
  | i, fuel + 1 =>
    if label ∈ taskLabels (anc i) then
      if statusOfLabel (anc i) label ≠ some Status.PASS then some none
      else some (some i)
    else regressionWalk anc label (i + 1) fuel

/-- The `for label in self.candidate_regressions` loop of `Push.regressions`:
build the regression mapping, dropping prior regressions; `none` as soon as
one label's walk fails to terminate within the fuel. -/
def regressionsGo (anc : Nat → List Task) (fuel : Nat) : List String → Option (List (String × Nat))
  | [] => some []
  | l :: ls =>
    match regressionWalk anc l 0 fuel, regressionsGo anc fuel ls with
    | none, _ => none
    | some none, rest => rest
    | some (some c), rest => rest.map (fun m => (l, c) :: m)

/-- `Push.regressions`, over the abstract ancestor chain `anc` and a fuel
bound on each label's walk. -/
def regressions (tasks : List Task) (anc : Nat → List Task) (fuel : Nat) :
    Option (List (String × Nat)) :=
  regressionsGo anc fuel (candidate_regressions tasks)

/-- `Push.possible_regressions`: the keys of `regressions` with count > 0. -/
def possible_regressions (m : List (String × Nat)) : List String :=
  (m.filter (fun p => decide (0 < p.2))).map Prod.fst

/-- `Push.likely_regressions`: the keys of `regressions` with count == 0. -/
def likely_regressions (m : List (String × Nat)) : List String :=
  (m.filter (fun p => p.2 == 0)).map Prod.fst

/-- The revision metadata the `_hgmo` fetch returns for one revision:
`pushid` and the `parents` revision list. -/
structure RevInfo where
  pushid : Int
  parents : List String

/-- The `for rev in other._hgmo['parents']` loop inside `Push.parent`:
scan the captured parents list; return the first revision whose pushid
differs from `self.pushid` (`Sum.inl`), otherwise the final value of
`other` when the list is exhausted (`Sum.inr`). -/
def parentScan (world : String → RevInfo) (selfPid : Int) :
    List String → String → String ⊕ String
  | [], other => Sum.inr other
  | rev :: rest, other =>
    if (world rev).pushid ≠ selfPid then Sum.inl rev
    else parentScan world selfPid rest rev

/-- The `while True` loop of `Push.parent`, with fuel: `none` at every fuel
value means the source loop never returns. -/
def parentWalk (world : String → RevInfo) (selfPid : Int) (other : String) : Nat → Option String
  | 0 => none
  | fuel + 1 =>
    match parentScan world selfPid (world other).parents other with
    | Sum.inl p => some p
    | Sum.inr next => parentWalk world selfPid next fuel

/-- Concrete tasks used to instantiate hypotheses of the proved theorems:
one passing and one failing run of label "L", and a failing run of "M". -/
def wTaskPass : Task := ⟨"L", 1800, "success", "not classified"⟩

/-- A failing, unclassified run of label "L". -/
def wTaskFail : Task := ⟨"L", 3600, "testfailed", "not classified"⟩

/-- A failing run of label "M", classified as fixed by commit. -/
def wTaskM : Task := ⟨"M", 1200, "testfailed", "fixed by commit"⟩

/-- A passing run of label "M". -/
def wTaskMPass : Task := ⟨"M", 600, "success", "other"⟩

/-- A failing, unclassified run of label "L" on an ancestor push. -/
def wTaskFailParent : Task := ⟨"L", 100, "testfailed", "not classified"⟩

/-- An ancestor chain on which every push ran a passing "L". -/
def wAncPass : Nat → List Task := fun _ => [wTaskPass]

/-- An ancestor chain on which no push ran any task at all. -/
def wAncEmpty : Nat → List Task := fun _ => []

/-- An ancestor chain on which every push ran "L" failing and "M" passing. -/
def wAncPrior : Nat → List Task := fun _ => [wTaskFailParent, wTaskMPass]

/-- A revision world in which "r" has pushid 1 and one parent "p" of
pushid 2, and every other revision has pushid 2 and no parents. -/
def wWorld : String → RevInfo :=
  fun s => if s = "r" then ⟨1, ["p"]⟩ else ⟨2, []⟩

/-- A revision world in which every revision has an empty parents list. -/
def wWorldStuck : String → RevInfo := fun _ => ⟨1, []⟩

/-- The label "L" as a named constant. -/
def wLabelL : String := "L"

/-- The revision "r" as a named constant. -/
def wRevR : String := "r"

/-- The revision "p" as a named constant. -/
def wRevP : String := "p"

theorem foldl_statusStep_inter (l : List Task) :
    l.foldl statusStep (some Status.INTERMITTENT) = some Status.INTERMITTENT := by
  induction l with
  | nil => rfl
  | cons t rest ih =>
    have hs : statusStep (some Status.INTERMITTENT) t = some Status.INTERMITTENT := by
      simp only [statusStep]
      cases t.failed <;> simp
    rw [List.foldl_cons, hs, ih]

theorem foldl_statusStep_fail (l : List Task) :
    l.foldl statusStep (some Status.FAIL) =
      if l.all Task.failed then some Status.FAIL else some Status.INTERMITTENT := by
  induction l with
  | nil => rfl
  | cons t rest ih =>
    rw [List.foldl_cons]
    cases h : t.failed
    · have hs : statusStep (some Status.FAIL) t = some Status.INTERMITTENT := by
        simp [statusStep, h]
      have hc : (t :: rest).all Task.failed = false := by
        simp only [List.all_cons, h, Bool.false_and]
      rw [hs, foldl_statusStep_inter, hc]
      simp
    · have hs : statusStep (some Status.FAIL) t = some Status.FAIL := by
        simp [statusStep, h]
      have hc : (t :: rest).all Task.failed = rest.all Task.failed := by
        simp only [List.all_cons, h, Bool.true_and]
      rw [hs, ih, hc]

theorem foldl_statusStep_pass (l : List Task) :
    l.foldl statusStep (some Status.PASS) =
      if l.all (fun u => !u.failed) then some Status.PASS else some Status.INTERMITTENT := by
  induction l with
  | nil => rfl
  | cons t rest ih =>
    rw [List.foldl_cons]
    cases h : t.failed
    · have hs : statusStep (some Status.PASS) t = some Status.PASS := by
        simp [statusStep, h]
      have hc : ((t :: rest).all fun u => !u.failed) = rest.all (fun u => !u.failed) := by
        simp only [List.all_cons, h, Bool.not_false, Bool.true_and]
      rw [hs, ih, hc]
    · have hs : statusStep (some Status.PASS) t = some Status.INTERMITTENT := by
        simp [statusStep, h]
      have hc : ((t :: rest).all fun u => !u.failed) = false := by
        simp only [List.all_cons, h, Bool.not_true, Bool.false_and]
      rw [hs, foldl_statusStep_inter, hc]
      simp

theorem status_cons (lbl : String) (t : Task) (rest : List Task) :
    (LabelSummary.mk lbl (t :: rest)).status =
      if (t :: rest).all (fun u => !u.failed) then some Status.PASS
      else if (t :: rest).all Task.failed then some Status.FAIL
      else some Status.INTERMITTENT := by
  show (t :: rest).foldl statusStep none = _
  rw [List.foldl_cons]
  cases h : t.failed
  · have hs : statusStep none t = some Status.PASS := by simp [statusStep, h]
    have hc : ((t :: rest).all fun u => !u.failed) = rest.all (fun u => !u.failed) := by
      simp only [List.all_cons, h, Bool.not_false, Bool.true_and]
    rw [hs, foldl_statusStep_pass, hc]
    cases hr : rest.all (fun u => !u.failed)
    · have hc2 : (t :: rest).all Task.failed = false := by
        simp only [List.all_cons, h, Bool.false_and]
      rw [hc2]
      simp [hr]
    · simp [hr]
  · have hs : statusStep none t = some Status.FAIL := by simp [statusStep, h]
    have hc : ((t :: rest).all fun u => !u.failed) = false := by
      simp only [List.all_cons, h, Bool.not_true, Bool.false_and]
    have hc2 : (t :: rest).all Task.failed = rest.all Task.failed := by
      simp only [List.all_cons, h, Bool.true_and]
    rw [hs, foldl_statusStep_fail, hc, hc2]
    simp

/-- Claim C3: for a Label Summary over a non-empty task list, the status is
PASS iff every task passed, FAIL iff every task failed, and INTERMITTENT
as soon as the tasks disagree (so a single disagreeing task among many
yields INTERMITTENT, not a majority vote). -/
theorem C3_status_trichotomy (lbl : String) (tasks : List Task) (h : tasks ≠ []) :
    ((LabelSummary.mk lbl tasks).status = some Status.PASS ↔ ∀ t ∈ tasks, t.failed = false) ∧
    ((LabelSummary.mk lbl tasks).status = some Status.FAIL ↔ ∀ t ∈ tasks, t.failed = true) ∧
    (((∃ t ∈ tasks, t.failed = true) ∧ (∃ t ∈ tasks, t.failed = false)) →
      (LabelSummary.mk lbl tasks).status = some Status.INTERMITTENT) := by
  match tasks, h with
  | t :: rest, _ =>
    have hPiff : ((t :: rest).all (fun u => !u.failed) = true) ↔
        ∀ u ∈ t :: rest, u.failed = false := by
      simp [List.all_eq_true]
    have hFiff : ((t :: rest).all Task.failed = true) ↔
        ∀ u ∈ t :: rest, u.failed = true := by
      simp [List.all_eq_true]
    cases hP : (t :: rest).all (fun u => !u.failed)
    · have hPn : ¬ ∀ u ∈ t :: rest, u.failed = false := by
        intro hc
        exact absurd (hPiff.mpr hc) (by simp [hP])
      cases hF : (t :: rest).all Task.failed
      · have hFn : ¬ ∀ u ∈ t :: rest, u.failed = true := by
          intro hc
          exact absurd (hFiff.mpr hc) (by simp [hF])
        have hst : (LabelSummary.mk lbl (t :: rest)).status = some Status.INTERMITTENT := by
          rw [status_cons, hP, hF]
          simp
        rw [hst]
        exact ⟨iff_of_false (by simp) hPn, iff_of_false (by simp) hFn, fun _ => rfl⟩
      · have hFa : ∀ u ∈ t :: rest, u.failed = true := hFiff.mp hF
        have hst : (LabelSummary.mk lbl (t :: rest)).status = some Status.FAIL := by
          rw [status_cons, hP, hF]
          simp
        rw [hst]
        refine ⟨iff_of_false (by simp) hPn, iff_of_true rfl hFa, ?_⟩
        rintro ⟨_, u, hu, hufail⟩
        have hu2 := hFa u hu
        rw [hu2] at hufail
        exact absurd hufail (by simp)
    · have hPa : ∀ u ∈ t :: rest, u.failed = false := hPiff.mp hP
      have hFn : ¬ ∀ u ∈ t :: rest, u.failed = true := by
        intro hc
        have h1 := hPa t (by simp)
        have h2 := hc t (by simp)
        rw [h1] at h2
        exact absurd h2 (by simp)
      have hst : (LabelSummary.mk lbl (t :: rest)).status = some Status.PASS := by
        rw [status_cons, hP]
        simp
      rw [hst]
      refine ⟨iff_of_true rfl hPa, iff_of_false (by simp) hFn, ?_⟩
      rintro ⟨⟨u, hu, hufail⟩, _⟩
      have hu2 := hPa u hu
      rw [hu2] at hufail
      exact absurd hufail (by simp)

/-- Witness for C3 at a concrete two-task summary (one pass, one fail). -/
theorem C3_status_trichotomy_witness :
    ((LabelSummary.mk wLabelL [wTaskPass, wTaskFail]).status = some Status.PASS ↔
      ∀ t ∈ [wTaskPass, wTaskFail], t.failed = false) ∧
    ((LabelSummary.mk wLabelL [wTaskPass, wTaskFail]).status = some Status.FAIL ↔
      ∀ t ∈ [wTaskPass, wTaskFail], t.failed = true) ∧
    (((∃ t ∈ [wTaskPass, wTaskFail], t.failed = true) ∧
        (∃ t ∈ [wTaskPass, wTaskFail], t.failed = false)) →
      (LabelSummary.mk wLabelL [wTaskPass, wTaskFail]).status = some Status.INTERMITTENT) :=
  C3_status_trichotomy wLabelL [wTaskPass, wTaskFail] (by decide)

theorem mem_taskLabels (tasks : List Task) (label : String) :
    label ∈ taskLabels tasks ↔ ∃ t ∈ tasks, t.label = label := by
  simp [taskLabels, List.mem_dedup, List.mem_map]

theorem mem_classifications (tasks : List Task) (label c : String) :
    c ∈ (labelSummary tasks label).classifications ↔
      ∃ t ∈ tasks, t.label = label ∧ t.failed = true ∧ t.classification = c := by
  simp only [labelSummary, LabelSummary.classifications, List.mem_dedup, List.mem_map,
    List.mem_filter]
  constructor
  · rintro ⟨t, ⟨⟨ht, hlab⟩, hfail⟩, hcls⟩
    exact ⟨t, ht, by simpa using hlab, hfail, hcls⟩
  · rintro ⟨t, ht, hlab, hfail, hcls⟩
    exact ⟨t, ⟨⟨ht, by simpa using hlab⟩, hfail⟩, hcls⟩

/-- Claim C1: a label is a candidate regression iff its summary status is
not PASS and at least one classification of its failed tasks is in the
unexplained set; consequently every candidate regression has a summary
status different from PASS. -/
theorem C1_candidate_regressions_iff (tasks : List Task) (label : String) :
    (label ∈ candidate_regressions tasks ↔
      ((labelSummary tasks label).status ≠ some Status.PASS ∧
        ∃ c ∈ (labelSummary tasks label).classifications, c ∈ failclass)) ∧
    (∀ l ∈ candidate_regressions tasks, (labelSummary tasks l).status ≠ some Status.PASS) := by
  constructor
  · constructor
    · intro hmem
      rw [candidate_regressions, List.mem_filter] at hmem
      obtain ⟨hl, hp⟩ := hmem
      rw [Bool.and_eq_true] at hp
      obtain ⟨h1, h2⟩ := hp
      refine ⟨of_decide_eq_true h1, ?_⟩
      obtain ⟨c, hc, hcf⟩ := List.any_eq_true.mp h2
      exact ⟨c, hc, by simpa using hcf⟩
    · rintro ⟨hstat, c, hc, hcf⟩
      have hl : label ∈ taskLabels tasks := by
        obtain ⟨t, ht, hlab, _, _⟩ := (mem_classifications tasks label c).mp hc
        exact (mem_taskLabels tasks label).mpr ⟨t, ht, hlab⟩
      rw [candidate_regressions, List.mem_filter]
      refine ⟨hl, ?_⟩
      rw [Bool.and_eq_true]
      exact ⟨decide_eq_true hstat, List.any_eq_true.mpr ⟨c, hc, by simpa using hcf⟩⟩
  · intro l hl
    rw [candidate_regressions, List.mem_filter] at hl
    have hp := hl.2
    rw [Bool.and_eq_true] at hp
    exact of_decide_eq_true hp.1

/-- Claim C9: constructing a Label Summary from tasks containing a label
different from the summary's fails the construction-time assertion
(modelled as `none`); construction from tasks all carrying the summary's
label succeeds, and in particular the grouped construction performed by
`label_summaries` (filtering the push's tasks by label) never fails. -/
theorem C9_label_assertion (label : String) (tasks : List Task) :
    ((∃ t ∈ tasks, t.label ≠ label) → mkLabelSummary label tasks = none) ∧
    ((∀ t ∈ tasks, t.label = label) → mkLabelSummary label tasks = some ⟨label, tasks⟩) ∧
    (∀ ts : List Task, (mkLabelSummary label (ts.filter (fun t => t.label == label))).isSome) := by
  refine ⟨?_, ?_, ?_⟩
  · rintro ⟨t, ht, hne⟩
    have hall : tasks.all (fun t => t.label == label) = false := by
      rw [List.all_eq_false]
      exact ⟨t, ht, by simpa using hne⟩
    simp [mkLabelSummary, hall]
  · intro h
    have hall : tasks.all (fun t => t.label == label) = true :=
      List.all_eq_true.mpr fun t ht => by simpa using h t ht
    simp [mkLabelSummary, hall]
  · intro ts
    have hall : (ts.filter (fun t => t.label == label)).all (fun t => t.label == label) = true :=
      List.all_eq_true.mpr fun t ht => (List.mem_filter.mp ht).2
    simp [mkLabelSummary, hall]

theorem sanitizeTasks_eq_filterMap (data : List RawTask) :
    sanitizeTasks data = data.filterMap toTask := by
  induction data with
  | nil => rfl
  | cons r rest ih =>
    cases htr : toTask r <;> simp [sanitizeTasks, List.filterMap_cons, htr, ih]

theorem toTask_duration_pos (r : RawTask) (t : Task) (h : toTask r = some t) :
    0 < t.duration := by
  unfold toTask at h
  split at h
  · split at h
    next hd => exact absurd h (by simp)
    next hd =>
      obtain rfl := Option.some_injective _ h
      exact not_le.mp hd
  all_goals exact absurd h (by simp)

/-- Claim C7: ingestion keeps a raw record iff all four of label, duration,
result, classification are present and the duration is positive; the
sanitized task list is exactly the per-record filter of the raw data, and
consequently never contains a task of non-positive duration. -/
theorem C7_ingestion (data : List RawTask) :
    (sanitizeTasks data = data.filterMap toTask) ∧
    (∀ r : RawTask, (toTask r).isSome ↔
      (r.label.isSome ∧ r.duration.isSome ∧ r.result.isSome ∧ r.classification.isSome ∧
        0 < r.duration.getD 0)) ∧
    (∀ t ∈ sanitizeTasks data, 0 < t.duration) := by
  refine ⟨sanitizeTasks_eq_filterMap data, ?_, ?_⟩
  · intro r
    obtain ⟨lab, dur, res, cls⟩ := r
    cases lab <;> cases dur <;> cases res <;> cases cls <;>
      simp [toTask] <;> omega
  · intro t ht
    rw [sanitizeTasks_eq_filterMap] at ht
    obtain ⟨r, _, hr⟩ := List.mem_filterMap.mp ht
    exact toTask_duration_pos r t hr

theorem schedLoop_eq_firstSeen (l : List Task) : ∀ (seen : List String) (acc : Int),
    schedLoop l seen acc =
      acc + ((firstSeenPerLabel (l.filter (fun t => !seen.contains t.label))).map
        Task.duration).sum := by
  induction l with
  | nil => intro seen acc; simp [schedLoop, firstSeenPerLabel]
  | cons t rest ih =>
    intro seen acc
    cases hseen : seen.contains t.label
    · have hmem : t.label ∉ seen := by simpa using hseen
      have hfil : (t :: rest).filter (fun u => !seen.contains u.label) =
          t :: rest.filter (fun u => !seen.contains u.label) := by
        simp [List.filter_cons, hmem]
      have hinner : (rest.filter (fun u => !seen.contains u.label)).filter
            (fun u => !(u.label == t.label)) =
          rest.filter (fun u => !(t.label :: seen).contains u.label) := by
        rw [List.filter_filter]
        refine List.filter_congr fun u _ => ?_
        show (!(u.label == t.label) && !seen.contains u.label) = _
        rw [List.contains_cons, Bool.not_or]
      have hstep : schedLoop (t :: rest) seen acc =
          schedLoop rest (t.label :: seen) (acc + t.duration) := by
        simp [schedLoop, hmem]
      rw [hstep, ih, hfil]
      rw [firstSeenPerLabel, hinner]
      simp [add_assoc]
    · have hmem : t.label ∈ seen := by simpa using hseen
      have hfil : (t :: rest).filter (fun u => !seen.contains u.label) =
          rest.filter (fun u => !seen.contains u.label) := by
        simp [List.filter_cons, hmem]
      have hstep : schedLoop (t :: rest) seen acc = schedLoop rest seen acc := by
        simp [schedLoop, hmem]
      rw [hstep, ih, hfil]

theorem schedLoop_bounds (l : List Task) : ∀ (seen : List String) (acc : Int),
    (∀ t ∈ l, 0 ≤ t.duration) →
      acc ≤ schedLoop l seen acc ∧
        schedLoop l seen acc ≤ acc + (l.map Task.duration).sum := by
  induction l with
  | nil => intro seen acc _; simp [schedLoop]
  | cons t rest ih =>
    intro seen acc h
    have ht : (0 : Int) ≤ t.duration := h t (by simp)
    have hrest : ∀ u ∈ rest, (0 : Int) ≤ u.duration := fun u hu => h u (by simp [hu])
    have hsum : (t :: rest).map Task.duration = t.duration :: rest.map Task.duration := rfl
    cases hseen : seen.contains t.label
    · have hmem : t.label ∉ seen := by simpa using hseen
      have hstep : schedLoop (t :: rest) seen acc =
          schedLoop rest (t.label :: seen) (acc + t.duration) := by
        simp [schedLoop, hmem]
      obtain ⟨h1, h2⟩ := ih (t.label :: seen) (acc + t.duration) hrest
      rw [hstep, hsum]
      rw [List.sum_cons]
      constructor
      · omega
      · omega
    · have hmem : t.label ∈ seen := by simpa using hseen
      have hstep : schedLoop (t :: rest) seen acc = schedLoop rest seen acc := by
        simp [schedLoop, hmem]
      obtain ⟨h1, h2⟩ := ih seen acc hrest
      rw [hstep, hsum, List.sum_cons]
      constructor
      · omega
      · omega

/-- Claim C8: `duration` is the truncated hour count of the sum of every
task's duration, and `scheduled_duration` is the truncated hour count of
the same sum restricted to the first-seen task of each label in list
order. -/
theorem C8_duration_aggregates (tasks : List Task) :
    Push.duration tasks = Int.tdiv ((tasks.map Task.duration).sum) 3600 ∧
    Push.scheduled_duration tasks =
      Int.tdiv (((firstSeenPerLabel tasks).map Task.duration).sum) 3600 := by
  refine ⟨rfl, ?_⟩
  rw [Push.scheduled_duration, schedLoop_eq_firstSeen, zero_add]
  have hfil : tasks.filter (fun t => !(([] : List String).contains t.label)) = tasks := by
    simp
  rw [hfil]

/-- Claim C10: with every task duration positive (as ingestion guarantees),
the scheduled duration never exceeds the total duration. -/
theorem C10_scheduled_le_total (tasks : List Task) (h : ∀ t ∈ tasks, 0 < t.duration) :
    Push.scheduled_duration tasks ≤ Push.duration tasks := by
  have h0 : ∀ t ∈ tasks, (0 : Int) ≤ t.duration := fun t ht => le_of_lt (h t ht)
  obtain ⟨h1, h2⟩ := schedLoop_bounds tasks [] 0 h0
  have hs0 : (0 : Int) ≤ schedLoop tasks [] 0 := h1
  have hsum0 : (0 : Int) ≤ (tasks.map Task.duration).sum := by omega
  rw [Push.scheduled_duration, Push.duration]
  rw [Int.tdiv_eq_ediv hs0 (by norm_num), Int.tdiv_eq_ediv hsum0 (by norm_num)]
  exact Int.ediv_le_ediv (by norm_num) (by omega)

/-- Witness for C10 at a concrete three-task push. -/
theorem C10_scheduled_le_total_witness :
    Push.scheduled_duration [wTaskPass, wTaskFail, wTaskM] ≤
      Push.duration [wTaskPass, wTaskFail, wTaskM] :=
  C10_scheduled_le_total [wTaskPass, wTaskFail, wTaskM] (by decide)

theorem candidate_regressions_nodup (tasks : List Task) :
    (candidate_regressions tasks).Nodup :=
  List.Nodup.filter _ (List.nodup_dedup _)

theorem regressionsGo_mem (anc : Nat → List Task) (fuel : Nat) :
    ∀ (ls : List String) (m : List (String × Nat)),
      regressionsGo anc fuel ls = some m →
      ∀ (l : String) (c : Nat), (l, c) ∈ m →
        l ∈ ls ∧ regressionWalk anc l 0 fuel = some (some c) := by
  intro ls
  induction ls with
  | nil =>
    intro m hm l c hmem
    obtain rfl : ([] : List (String × Nat)) = m := Option.some_injective _ hm
    exact absurd hmem (by simp)
  | cons l0 ls ih =>
    intro m hm l c hmem
    rw [regressionsGo] at hm
    cases hw : regressionWalk anc l0 0 fuel with
    | none => rw [hw] at hm; exact absurd hm (by simp)
    | some o =>
      rw [hw] at hm
      cases o with
      | none =>
        obtain ⟨hls, hwalk⟩ := ih m hm l c hmem
        exact ⟨by simp [hls], hwalk⟩
      | some c0 =>
        cases hr : regressionsGo anc fuel ls with
        | none => rw [hr] at hm; exact absurd hm (by simp)
        | some m0 =>
          rw [hr] at hm
          obtain rfl : (l0, c0) :: m0 = m := by simpa using hm
          rcases List.mem_cons.mp hmem with heq | htail
          · have h1 : l = l0 ∧ c = c0 := by simpa using heq
            obtain ⟨rfl, rfl⟩ := h1
            exact ⟨by simp, hw⟩
          · obtain ⟨hls, hwalk⟩ := ih m0 hr l c htail
            exact ⟨by simp [hls], hwalk⟩

theorem regressionsGo_keys_sublist (anc : Nat → List Task) (fuel : Nat) :
    ∀ (ls : List String) (m : List (String × Nat)),
      regressionsGo anc fuel ls = some m → (m.map Prod.fst).Sublist ls := by
  intro ls
  induction ls with
  | nil =>
    intro m hm
    obtain rfl : ([] : List (String × Nat)) = m := Option.some_injective _ hm
    simp
  | cons l0 ls ih =>
    intro m hm
    rw [regressionsGo] at hm
    cases hw : regressionWalk anc l0 0 fuel with
    | none => rw [hw] at hm; exact absurd hm (by simp)
    | some o =>
      rw [hw] at hm
      cases o with
      | none => exact (ih m hm).cons l0
      | some c0 =>
        cases hr : regressionsGo anc fuel ls with
        | none => rw [hr] at hm; exact absurd hm (by simp)
        | some m0 =>
          rw [hr] at hm
          obtain rfl : (l0, c0) :: m0 = m := by simpa using hm
          exact (ih m0 hr).cons₂ l0

theorem assoc_keys_nodup_inj (m : List (String × Nat)) (hnd : (m.map Prod.fst).Nodup)
    (l : String) (a b : Nat) (ha : (l, a) ∈ m) (hb : (l, b) ∈ m) : a = b := by
  induction m with
  | nil => exact absurd ha (by simp)
  | cons p rest ih =>
    rw [List.map_cons, List.nodup_cons] at hnd
    obtain ⟨hhead, hrest⟩ := hnd
    rcases List.mem_cons.mp ha with hae | hat
    · rcases List.mem_cons.mp hb with hbe | hbt
      · have h2 : ((l, a) : String × Nat) = (l, b) := hae.trans hbe.symm
        exact congrArg Prod.snd h2
      · exfalso
        have hp1 : p.1 = l := by rw [← hae]
        exact hhead (hp1 ▸ List.mem_map.mpr ⟨(l, b), hbt, rfl⟩)
    · rcases List.mem_cons.mp hb with hbe | hbt
      · exfalso
        have hp1 : p.1 = l := by rw [← hbe]
        exact hhead (hp1 ▸ List.mem_map.mpr ⟨(l, a), hat, rfl⟩)
      · exact ih hrest hat hbt

theorem mem_likely_regressions (m : List (String × Nat)) (l : String) :
    l ∈ likely_regressions m ↔ (l, 0) ∈ m := by
  simp only [likely_regressions, List.mem_map, List.mem_filter]
  constructor
  · rintro ⟨⟨l1, c1⟩, ⟨hm, hc⟩, h1⟩
    obtain rfl : l1 = l := h1
    obtain rfl : c1 = 0 := by simpa using hc
    exact hm
  · intro hm
    exact ⟨(l, 0), ⟨hm, by simp⟩, rfl⟩

theorem mem_possible_regressions (m : List (String × Nat)) (l : String) :
    l ∈ possible_regressions m ↔ ∃ c, 0 < c ∧ (l, c) ∈ m := by
  simp only [possible_regressions, List.mem_map, List.mem_filter]
  constructor
  · rintro ⟨⟨l1, c1⟩, ⟨hm, hc⟩, h1⟩
    obtain rfl : l1 = l := h1
    exact ⟨c1, by simpa using hc, hm⟩
  · rintro ⟨c, hc, hm⟩
    exact ⟨(l, c), ⟨hm, by simpa using hc⟩, rfl⟩

/-- Claim C4: whenever the regression walk terminates and yields a mapping,
`likely_regressions` is exactly its keys of count 0, `possible_regressions`
exactly its keys of positive count, and the two are disjoint with union the
full key set. -/
theorem C4_partition (tasks : List Task) (anc : Nat → List Task) (fuel : Nat)
    (m : List (String × Nat)) (h : regressions tasks anc fuel = some m) :
    (∀ l, l ∈ likely_regressions m ↔ (l, 0) ∈ m) ∧
    (∀ l, l ∈ possible_regressions m ↔ ∃ c, 0 < c ∧ (l, c) ∈ m) ∧
    (∀ l, ¬(l ∈ possible_regressions m ∧ l ∈ likely_regressions m)) ∧
    (∀ l, l ∈ m.map Prod.fst ↔ (l ∈ possible_regressions m ∨ l ∈ likely_regressions m)) := by
  have hnd : (m.map Prod.fst).Nodup :=
    (regressionsGo_keys_sublist anc fuel _ m h).nodup (candidate_regressions_nodup tasks)
  refine ⟨fun l => mem_likely_regressions m l, fun l => mem_possible_regressions m l, ?_, ?_⟩
  · rintro l ⟨hp, hl⟩
    obtain ⟨c, hc, hcm⟩ := (mem_possible_regressions m l).mp hp
    have h0 : (l, 0) ∈ m := (mem_likely_regressions m l).mp hl
    have := assoc_keys_nodup_inj m hnd l c 0 hcm h0
    omega
  · intro l
    constructor
    · intro hk
      obtain ⟨q, hm1, h1⟩ := List.mem_map.mp hk
      rcases Nat.eq_zero_or_pos q.2 with hq0 | hqpos
      · refine Or.inr ((mem_likely_regressions m l).mpr ?_)
        have hq : q = (l, 0) := Prod.ext h1 hq0
        exact hq ▸ hm1
      · refine Or.inl ((mem_possible_regressions m l).mpr ⟨q.2, hqpos, ?_⟩)
        have hq : q = (l, q.2) := Prod.ext h1 rfl
        exact hq ▸ hm1
    · rintro (hp | hl)
      · obtain ⟨c, _, hcm⟩ := (mem_possible_regressions m l).mp hp
        exact List.mem_map.mpr ⟨(l, c), hcm, rfl⟩
      · exact List.mem_map.mpr ⟨(l, 0), (mem_likely_regressions m l).mp hl, rfl⟩

/-- Witness for C4 at a concrete push: one failing unclassified "L" whose
immediate parent ran "L" passing, so the mapping is `[("L", 0)]`. -/
theorem C4_partition_witness :
    (∀ l, l ∈ likely_regressions [("L", 0)] ↔ (l, 0) ∈ [("L", 0)]) ∧
    (∀ l, l ∈ possible_regressions [("L", 0)] ↔ ∃ c, 0 < c ∧ (l, c) ∈ [("L", 0)]) ∧
    (∀ l, ¬(l ∈ possible_regressions [("L", 0)] ∧ l ∈ likely_regressions [("L", 0)])) ∧
    (∀ l, l ∈ ([("L", 0)] : List (String × Nat)).map Prod.fst ↔
      (l ∈ possible_regressions [("L", 0)] ∨ l ∈ likely_regressions [("L", 0)])) :=
  C4_partition [wTaskFail] wAncPass 1 [("L", 0)] (by decide)

theorem regressionWalk_stops_at_prior (anc : Nat → List Task) (label : String) :
    ∀ (i start fuel : Nat),
      (∀ j, j < i → label ∉ taskLabels (anc (start + j))) →
      label ∈ taskLabels (anc (start + i)) →
      statusOfLabel (anc (start + i)) label ≠ some Status.PASS →
      ∀ c, regressionWalk anc label start fuel ≠ some (some c) := by
  intro i
  induction i with
  | zero =>
    intro start fuel _ hfound hprior c
    cases fuel with
    | zero => simp [regressionWalk]
    | succ f =>
      have hf : label ∈ taskLabels (anc start) := by simpa using hfound
      have hp : statusOfLabel (anc start) label ≠ some Status.PASS := by simpa using hprior
      simp [regressionWalk, hf, hp]
  | succ i ih =>
    intro start fuel h0 hfound hprior c
    cases fuel with
    | zero => simp [regressionWalk]
    | succ f =>
      have hnot : label ∉ taskLabels (anc start) := by
        have := h0 0 (Nat.succ_pos i)
        simpa using this
      have hred : regressionWalk anc label start (f + 1) =
          regressionWalk anc label (start + 1) f := by
        simp [regressionWalk, hnot]
      rw [hred]
      refine ih (start + 1) f ?_ ?_ ?_ c
      · intro j hj
        have := h0 (j + 1) (Nat.succ_lt_succ hj)
        have he : start + (j + 1) = start + 1 + j := by omega
        rw [he] at this
        exact this
      · have he : start + (i + 1) = start + 1 + i := by omega
        rw [he] at hfound
        exact hfound
      · have he : start + (i + 1) = start + 1 + i := by omega
        rw [he] at hprior
        exact hprior

/-- Claim C5: a candidate label whose nearest ancestor that ran it has a
non-PASS status there is a prior regression and is excluded from the
regressions mapping entirely. -/
theorem C5_prior_regression_excluded (tasks : List Task) (anc : Nat → List Task)
    (fuel : Nat) (m : List (String × Nat)) (label : String) (i : Nat)
    (hm : regressions tasks anc fuel = some m)
    (hnear : ∀ j, j < i → label ∉ taskLabels (anc j))
    (hfound : label ∈ taskLabels (anc i))
    (hprior : statusOfLabel (anc i) label ≠ some Status.PASS) :
    label ∉ m.map Prod.fst := by
  intro hk
  obtain ⟨q, hmem, h1⟩ := List.mem_map.mp hk
  have hq : q = (label, q.2) := Prod.ext h1 rfl
  rw [hq] at hmem
  have hw := (regressionsGo_mem anc fuel _ m hm label q.2 hmem).2
  refine regressionWalk_stops_at_prior anc label i 0 fuel ?_ ?_ ?_ q.2 hw
  · intro j hj
    simpa using hnear j hj
  · simpa using hfound
  · simpa using hprior

/-- Witness for C5: "L" fails unclassified on the push and was already
failing unclassified on the parent, while "M" fails but passed on the
parent; the mapping is `[("M", 0)]` and "L" is excluded. -/
theorem C5_prior_regression_excluded_witness :
    wLabelL ∉ ([("M", 0)] : List (String × Nat)).map Prod.fst :=
  C5_prior_regression_excluded [wTaskFail, wTaskM] wAncPrior 1 [("M", 0)] wLabelL 0
    (by decide) (fun j hj => absurd hj (Nat.not_lt_zero j)) (by decide) (by decide)

theorem regressionWalk_empty_chain (fuel : Nat) :
    ∀ (i : Nat) (label : String), regressionWalk wAncEmpty label i fuel = none := by
  induction fuel with
  | zero => intro i label; rfl
  | succ f ih =>
    intro i label
    have hmem : label ∉ taskLabels (wAncEmpty i) := by simp [wAncEmpty, taskLabels]
    simp [regressionWalk, hmem, ih]

/-- Claim C2 is refuted by the code: on a push with a single failing
unclassified task "L" whose ancestor pushes never ran anything, the
ancestor walk of `Push.regressions` finds no bound (the source's
`max_depth = 5` is never used and 99 is never assigned), so the walk never
terminates: the embedded walk returns no mapping at any fuel, instead of
recording the sentinel distance 99. -/
theorem C2_walk_never_gives_up :
    ¬ ∃ (fuel : Nat) (m : List (String × Nat)),
      regressions [wTaskFail] wAncEmpty fuel = some m := by
  rintro ⟨fuel, m, hm⟩
  have hc : candidate_regressions [wTaskFail] = [wLabelL] := by decide
  rw [regressions, hc, regressionsGo, regressionWalk_empty_chain fuel 0 wLabelL] at hm
  exact absurd hm (by simp)

theorem parentScan_inl (world : String → RevInfo) (selfPid : Int) :
    ∀ (revs : List String) (other p : String),
      parentScan world selfPid revs other = Sum.inl p → (world p).pushid ≠ selfPid := by
  intro revs
  induction revs with
  | nil =>
    intro other p h
    exact absurd h (by simp [parentScan])
  | cons rev rest ih =>
    intro other p h
    rw [parentScan] at h
    by_cases hpid : (world rev).pushid ≠ selfPid
    · rw [if_pos hpid] at h
      obtain rfl : rev = p := Sum.inl.inj h
      exact hpid
    · rw [if_neg hpid] at h
      exact ih rev p h

theorem parentWalk_ne (world : String → RevInfo) (selfPid : Int) :
    ∀ (fuel : Nat) (other p : String),
      parentWalk world selfPid other fuel = some p → (world p).pushid ≠ selfPid := by
  intro fuel
  induction fuel with
  | zero =>
    intro other p h
    exact absurd h (by simp [parentWalk])
  | succ f ih =>
    intro other p h
    rw [parentWalk] at h
    cases hscan : parentScan world selfPid (world other).parents other with
    | inl q =>
      rw [hscan] at h
      have hqp : q = p := Option.some_injective _ h
      rw [← hqp]
      exact parentScan_inl world selfPid (world other).parents other q hscan
    | inr next =>
      rw [hscan] at h
      exact ih next p h

/-- Claim C6 (amended): whenever the walk of `Push.parent` returns a push,
that push's pushid is strictly different from this push's pushid. -/
theorem C6_parent_pushid_differs (world : String → RevInfo) (rev : String) (fuel : Nat)
    (p : String) (h : parentWalk world (world rev).pushid rev fuel = some p) :
    (world p).pushid ≠ (world rev).pushid :=
  parentWalk_ne world (world rev).pushid fuel rev p h

/-- Witness for C6 in a world where "r" (pushid 1) has the parent "p"
(pushid 2): the walk returns "p" after one step. -/
theorem C6_parent_pushid_differs_witness :
    (wWorld wRevP).pushid ≠ (wWorld wRevR).pushid :=
  C6_parent_pushid_differs wWorld wRevR 1 wRevP (by decide)

/-- Counterexample for C6 as stated: in a world where every revision has an
empty parents list, the walk of `Push.parent` makes no progress and never
returns at any fuel — the source loops forever instead of failing. -/
theorem C6_stuck_parent_never_returns :
    ¬ ∃ (fuel : Nat) (p : String),
      parentWalk wWorldStuck (wWorldStuck wRevR).pushid wRevR fuel = some p := by
  have hall : ∀ (fuel : Nat) (other : String),
      parentWalk wWorldStuck (wWorldStuck wRevR).pushid other fuel = none := by
    intro fuel
    induction fuel with
    | zero => intro other; rfl
    | succ f ih =>
      intro other
      rw [parentWalk]
      exact ih other
  rintro ⟨fuel, p, hp⟩
  rw [hall fuel wRevR] at hp
  exact absurd hp (by simp)

end CIRecipes
